import Mathlib

/-!
Shallow embedding of the transform execution engine of this repository.

The two transforms under
`src/chainalytic/zones/public-icon/aggregator/transform_registry/` are
modelled as pure state-transition functions over a typed view of their
per-transform key-value cache stores:

* `StakeHistory.execute` embeds `stake_history.py` `Transform.execute`;
* `RecentStakeWallets.execute` embeds `recent_stake_wallets.py`
  `Transform.execute`.

Modelling conventions:

* Python floats are modelled as exact rationals (`ℚ`); block heights and
  unlock heights as `ℕ` (the spec fixes `height : integer ≥ 0`); the
  running wallet count as `ℤ`.
* LevelDB keys/values are modelled as typed fields of a state record; a
  stored byte string that is parsed back (`float(...)`, `int(...)`,
  `json.loads`, `split(b':')`) is represented directly by its parsed
  value, since the serialisations used by the code round-trip.
* Python dicts (the JSON-encoded `unstaking` mapping, the per-wallet
  payload) are modelled as insertion-ordered association lists; `dinsert`
  is dict assignment (replace in place, else append), `dlookup` is dict
  lookup.
* The external collaborators are parameters: `up : ℚ → ℚ → ℕ` stands for
  `unlock_period` (chain-policy formula, external `iconservice` code) and
  `supply : Option ℚ` for `Transform._get_total_supply` (read of the
  external chain-state database); `supply = none` means the chain-state
  collaborator is unavailable, so the read raises at its call site.
* Exceptions raised mid-call are modelled by `crash` results that carry
  the state as persisted at the failure point: `stake_history.py` issues
  plain `cache_db.put` calls, so every put already issued at the failure
  point stays visible; `recent_stake_wallets.py` stages all its writes in
  one `write_batch`, so it has no mid-call partial state.
* The sequencing guard `prev_state_height != height - 1` over Python
  integers is written as its (integer-)equivalent `height ≠ p + 1` to
  avoid truncated `ℕ` subtraction.
* The `execution_time` output field (wall-clock diagnostics) and the
  RPC transport of the resync request are outside the embedding; a
  `skip` result records the resync request's `height` argument.
-/

/-- Python dict lookup on an insertion-ordered association list. -/
def dlookup {α : Type} : List (String × α) → String → Option α
  | [], _ => none
  | (k, v) :: rest, k0 => if k0 = k then some v else dlookup rest k0

/-- Python dict assignment: replace the value at an existing key in
place, otherwise append the new binding at the end. -/
def dinsert {α : Type} : List (String × α) → String → α → List (String × α)
  | [], k, v => [(k, v)]
  | (k0, v0) :: rest, k, v =>
      if k0 = k then (k0, v) :: rest else (k0, v0) :: dinsert rest k v

/-- The per-address triple stored under the wallet's own key, i.e. the
`f'{stake_value}:{unstaking_value}:{unlock_height}'` encoding of
`stake_history.py`. -/
structure WalletRecord where
  stake_value : ℚ
  unstaking_value : ℚ
  unlock_height : ℕ
deriving DecidableEq, Repr

/-- Typed view of the `stake_history` transform cache store.  `none`
fields are absent keys; `unstaking` is the JSON-encoded pending-unlock
dict under key `b'unstaking'`; `wallets` collects the per-address keys. -/
structure CacheState where
  prev_state_height : Option ℕ
  prev_total_staking : Option ℚ
  prev_total_unstaking : Option ℚ
  prev_total_staking_wallets : Option ℤ
  unstaking : Option (List (String × ℕ))
  wallets : List (String × WalletRecord)
deriving DecidableEq, Repr

/-- The empty cache store, before the first block is processed. -/
def CacheState.init : CacheState := ⟨none, none, none, none, none, []⟩

/-- The pending-unlock dict as the code reads it: an absent `b'unstaking'`
key parses to the empty dict. -/
def CacheState.pendingD (st : CacheState) : List (String × ℕ) :=
  st.unstaking.getD []

/-- The `data` part of the `stake_history` transform output (the
`execution_time` diagnostic field is omitted). -/
structure SHOutput where
  height : ℕ
  total_staking : ℚ
  total_unstaking : ℚ
  total_staking_wallets : ℤ
deriving DecidableEq, Repr

/-- Result of the expiry-sweep loop (`stake_history.py` lines 76-91):
either the surviving pending dict plus the updated wallet entries, or a
crash (an address in the pending dict has no wallet record, so
`addr_data.split` raises) carrying the wallet entries as already put. -/
inductive SweepRes where
  | ok : List (String × ℕ) → List (String × WalletRecord) → SweepRes
  | crash : List (String × WalletRecord) → SweepRes
deriving DecidableEq, Repr

/-- Expiry sweep: iterate over a snapshot of the pending-unlock dict;
every entry whose `unlock_height ≤ height` is popped and its wallet
record is rewritten as `f'{stake_value}:0:0'`. -/
def sweepGo (height : ℕ) :
    List (String × ℕ) → List (String × WalletRecord) → SweepRes
  | [], ws => .ok [] ws
  | (a, uh) :: rest, ws =>
      if uh ≤ height then
        match dlookup ws a with
        | none => .crash ws
        | some r => sweepGo height rest (dinsert ws a ⟨r.stake_value, 0, 0⟩)
      else
        match sweepGo height rest ws with
        | .ok p' ws' => .ok ((a, uh) :: p') ws'
        | .crash ws' => .crash ws'

/-- In-memory loop state of the per-address update loop: the wallet
entries and pending dict as persisted so far, and the running totals. -/
structure LoopSt where
  wallets : List (String × WalletRecord)
  pending : List (String × ℕ)
  ts : ℚ
  tu : ℚ
  tw : ℤ
deriving DecidableEq, Repr

/-- Result of one step (or of the whole run) of the per-address loop:
`crash` carries the wallet entries and pending dict as persisted at the
failure point (only those two are written with `cache_db.put` inside the
loop; the running totals are in-memory only). -/
inductive StepRes where
  | ok : LoopSt → StepRes
  | crash : List (String × WalletRecord) → List (String × ℕ) → StepRes
deriving DecidableEq, Repr

/-- The pure per-wallet record update of `stake_history.py` lines
110-143: unstake branch (`cur < prior.stake_value`, recomputing
`unlock_height = height + unlock_period(prev_total_staking,
total_supply)`), restake branch, then the clamp of a non-positive
`unstaking_value` to `0:0`. -/
def updateWallet (up : ℚ → ℚ → ℕ) (sup : ℚ) (height : ℕ) (pts : ℚ)
    (prior : WalletRecord) (cur : ℚ) : WalletRecord :=
  if cur < prior.stake_value then
    let cu := if 0 < prior.unstaking_value then
        prior.unstaking_value + (prior.stake_value - cur)
      else prior.stake_value - cur
    if cu ≤ 0 then ⟨cur, 0, 0⟩ else ⟨cur, cu, height + up pts sup⟩
  else
    let cu := if 0 < prior.unstaking_value then
        prior.unstaking_value - (cur - prior.stake_value)
      else 0
    if cu ≤ 0 then ⟨cur, 0, 0⟩ else ⟨cur, cu, prior.unlock_height⟩

/-- The wallet-count transition of `stake_history.py` lines 113-116:
`+1` when the prior stake is zero and the new stake positive, `-1` when
the prior stake is positive and the new stake zero, `0` otherwise. -/
def countDelta (prior_stake v : ℚ) : ℤ :=
  if prior_stake = 0 ∧ 0 < v then 1
  else if 0 < prior_stake ∧ v = 0 then -1
  else 0

/-- One iteration of the per-address loop (`stake_history.py` lines
99-158): load the prior record (all-zero default), apply the
wallet-count transition, compute the new record (reading the external
total supply only in the unstake branch; an unavailable supply raises
there), persist the record, update the pending dict when the new
`unlock_height` is nonzero, and update the running totals by deltas. -/
def stepWallet (up : ℚ → ℚ → ℕ) (supply : Option ℚ) (height : ℕ) (pts : ℚ)
    (l : LoopSt) (a : String) (v : ℚ) : StepRes :=
  let prior := (dlookup l.wallets a).getD ⟨0, 0, 0⟩
  let tw' : ℤ := l.tw + countDelta prior.stake_value v
  if v < prior.stake_value ∧ supply = none then
    .crash l.wallets l.pending
  else
    let nr := updateWallet up (supply.getD 0) height pts prior v
    let ws' := dinsert l.wallets a nr
    let pend' := if nr.unlock_height ≠ 0 then dinsert l.pending a nr.unlock_height
      else l.pending
    .ok ⟨ws', pend', l.ts - prior.stake_value + v,
      l.tu - prior.unstaking_value + nr.unstaking_value, tw'⟩

/-- The whole per-address loop over this block's payload dict. -/
def loopGo (up : ℚ → ℚ → ℕ) (supply : Option ℚ) (height : ℕ) (pts : ℚ) :
    List (String × ℚ) → LoopSt → StepRes
  | [], l => .ok l
  | (a, v) :: rest, l =>
      match stepWallet up supply height pts l a v with
      | .ok l' => loopGo up supply height pts rest l'
      | .crash ws pend => .crash ws pend

/-- Result of one `StakeHistory.execute` call.  `skip st p` models the
out-of-order path: state `st` untouched, a resync request
(`set_last_block_height` carrying height `p`) issued, `None` returned.
`crash st` models an exception raised mid-call with `st` the state as
persisted at that point (the transform issues plain puts, not a batch). -/
inductive SHResult where
  | skip : CacheState → ℕ → SHResult
  | committed : CacheState → SHOutput → SHResult
  | crash : CacheState → SHResult
deriving DecidableEq, Repr

/-- Body of `stake_history.py` `Transform.execute` after the sequencing
guard: read previous totals (absent keys parse to `0`), run the expiry
sweep, rewrite the `b'unstaking'` key, run the per-address loop, then
put the new height and totals and return the output dict. -/
def StakeHistory.body (up : ℚ → ℚ → ℕ) (supply : Option ℚ) (st : CacheState)
    (height : ℕ) (input : List (String × ℚ)) : SHResult :=
  let pts := st.prev_total_staking.getD 0
  let ptu := st.prev_total_unstaking.getD 0
  let ptw := st.prev_total_staking_wallets.getD 0
  match sweepGo height st.pendingD st.wallets with
  | .crash ws => .crash { st with wallets := ws }
  | .ok pend1 ws1 =>
      match loopGo up supply height pts input ⟨ws1, pend1, pts, ptu, ptw⟩ with
      | .crash ws pend =>
          .crash { st with wallets := ws, unstaking := some pend }
      | .ok l =>
          .committed
            { prev_state_height := some height,
              prev_total_staking := some l.ts,
              prev_total_unstaking := some l.tu,
              prev_total_staking_wallets := some l.tw,
              unstaking := some l.pending,
              wallets := l.wallets }
            ⟨height, l.ts, l.tu, l.tw⟩

/-- `stake_history.py` `Transform.execute`: the sequencing guard, then
the body.  The guard `prev_state_height != height - 1` over Python
integers is written as `height ≠ p + 1`. -/
def StakeHistory.execute (up : ℚ → ℚ → ℕ) (supply : Option ℚ)
    (st : CacheState) (height : ℕ) (input : List (String × ℚ)) : SHResult :=
  match st.prev_state_height with
  | some p => if height = p + 1 then StakeHistory.body up supply st height input
      else .skip st p
  | none => StakeHistory.body up supply st height input

/-- Iterate committed `StakeHistory.execute` calls over a list of block
payloads at consecutive heights; `none` as soon as a call does not
commit. -/
def runBlocks (up : ℚ → ℚ → ℕ) (supply : Option ℚ) (st : CacheState)
    (height : ℕ) : List (List (String × ℚ)) → Option CacheState
  | [] => some st
  | b :: bs =>
      match StakeHistory.execute up supply st height b with
      | .committed st' _ => runBlocks up supply st' (height + 1) bs
      | _ => none

/-- Cache states reachable from the empty store through committed
`StakeHistory.execute` calls (the unlock-period policy is fixed, the
total supply is read afresh each block). -/
inductive Reachable (up : ℚ → ℚ → ℕ) : CacheState → Prop where
  | init : Reachable up CacheState.init
  | step {st st' : CacheState} {s : ℚ} {h : ℕ}
      {input : List (String × ℚ)} {out : SHOutput} :
      Reachable up st →
      StakeHistory.execute up (some s) st h input = .committed st' out →
      Reachable up st'

/-- Sum of `stake_value` over all persisted wallet records. -/
def sumStaking : List (String × WalletRecord) → ℚ
  | [] => 0
  | (_, r) :: rest => r.stake_value + sumStaking rest

/-- Sum of `unstaking_value` over all persisted wallet records. -/
def sumUnstaking : List (String × WalletRecord) → ℚ
  | [] => 0
  | (_, r) :: rest => r.unstaking_value + sumUnstaking rest

/-- Typed view of the `recent_stake_wallets` transform cache store. -/
structure RswState where
  last_state_height : Option ℕ
  recent_stake_wallets : Option (List (String × ℚ))
deriving DecidableEq, Repr

/-- The empty `recent_stake_wallets` cache store. -/
def RswState.init : RswState := ⟨none, none⟩

/-- Output of the `recent_stake_wallets` transform: empty primary `data`
plus the `misc.recent_stake_wallets` side channel. -/
structure RswOutput where
  height : ℕ
  data : List (String × ℚ)
  misc_wallets : Option (List (String × ℚ))
  misc_height : ℕ
deriving DecidableEq, Repr

/-- Result of one `RecentStakeWallets.execute` call; `skip st p` as for
the stake-history transform.  There is no crash constructor: all writes
are staged in a single `write_batch` and committed together. -/
inductive RswResult where
  | skip : RswState → ℕ → RswResult
  | committed : RswState → RswOutput → RswResult
deriving DecidableEq, Repr

/-- `recent_stake_wallets.py` `Transform.execute`, taking the payload's
`input_data['data']` mapping: after the sequencing guard, a truthy
(non-empty) payload re-reads the cached mapping (absent parses to the
empty dict) and stages it back unchanged; an empty payload stages
nothing under that key and the `misc` channel carries `None`; the new
`last_state_height` is staged and the batch is written. -/
def RecentStakeWallets.execute (st : RswState) (height : ℕ)
    (input : List (String × ℚ)) : RswResult :=
  match st.last_state_height with
  | some p =>
      if height = p + 1 then
        if input.isEmpty then
          .committed ⟨some height, st.recent_stake_wallets⟩
            ⟨height, [], none, height⟩
        else
          .committed ⟨some height, some (st.recent_stake_wallets.getD [])⟩
            ⟨height, [], some (st.recent_stake_wallets.getD []), height⟩
      else .skip st p
  | none =>
      if input.isEmpty then
        .committed ⟨some height, st.recent_stake_wallets⟩
          ⟨height, [], none, height⟩
      else
        .committed ⟨some height, some (st.recent_stake_wallets.getD [])⟩
          ⟨height, [], some (st.recent_stake_wallets.getD []), height⟩

/-! Dictionary lemmas. -/

theorem dlookup_dinsert_self {α : Type} (m : List (String × α)) (k : String)
    (v : α) : dlookup (dinsert m k v) k = some v := by
  induction m with
  | nil => simp [dinsert, dlookup]
  | cons hd tl ih =>
    obtain ⟨k0, v0⟩ := hd
    by_cases h : k0 = k
    · subst h
      simp [dinsert, dlookup]
    · have h' : k ≠ k0 := fun e => h e.symm
      simp [dinsert, h, dlookup, h', ih]

theorem dlookup_dinsert_ne {α : Type} (m : List (String × α)) (k k' : String)
    (v : α) (h : k' ≠ k) : dlookup (dinsert m k v) k' = dlookup m k' := by
  induction m with
  | nil => simp [dinsert, dlookup, h]
  | cons hd tl ih =>
    obtain ⟨k0, v0⟩ := hd
    by_cases h0 : k0 = k
    · subst h0
      simp [dinsert, dlookup, h]
    · simp only [dinsert, if_neg h0, dlookup]
      by_cases h1 : k' = k0 <;> simp [h1, ih]

theorem dlookup_eq_none_iff {α : Type} (m : List (String × α)) (k : String) :
    dlookup m k = none ↔ k ∉ m.map Prod.fst := by
  induction m with
  | nil => simp [dlookup]
  | cons hd tl ih =>
    obtain ⟨k0, v0⟩ := hd
    by_cases h : k = k0 <;> simp [dlookup, h, ih]

theorem dlookup_isSome_of_mem {α : Type} (m : List (String × α)) (k : String)
    (v : α) (h : (k, v) ∈ m) : dlookup m k ≠ none := by
  intro hnone
  rw [dlookup_eq_none_iff] at hnone
  exact hnone (List.mem_map.mpr ⟨(k, v), h, rfl⟩)

theorem keys_dinsert {α : Type} (m : List (String × α)) (k : String) (v : α) :
    (dinsert m k v).map Prod.fst = m.map Prod.fst ∨
    (dinsert m k v).map Prod.fst = m.map Prod.fst ++ [k] := by
  induction m with
  | nil => simp [dinsert]
  | cons hd tl ih =>
    obtain ⟨k0, v0⟩ := hd
    by_cases h : k0 = k
    · subst h
      simp [dinsert]
    · rcases ih with ih | ih <;> simp [dinsert, h, ih]

theorem nodup_keys_dinsert {α : Type} (m : List (String × α)) (k : String)
    (v : α) (h : (m.map Prod.fst).Nodup) :
    ((dinsert m k v).map Prod.fst).Nodup := by
  induction m with
  | nil => simp [dinsert]
  | cons hd tl ih =>
    obtain ⟨k0, v0⟩ := hd
    simp only [List.map_cons, List.nodup_cons] at h
    by_cases hk : k0 = k
    · subst hk
      simpa [dinsert, List.nodup_cons] using h
    · simp only [dinsert, if_neg hk, List.map_cons, List.nodup_cons]
      refine ⟨?_, ih h.2⟩
      rcases keys_dinsert tl k v with he | he
      · rw [he]; exact h.1
      · rw [he]
        simp only [List.mem_append, List.mem_singleton]
        rintro (hmem | rfl)
        · exact h.1 hmem
        · exact hk rfl

theorem dlookup_of_mem_nodup {α : Type} (m : List (String × α)) (k : String)
    (v : α) (hnd : (m.map Prod.fst).Nodup) (h : (k, v) ∈ m) :
    dlookup m k = some v := by
  induction m with
  | nil => cases h
  | cons hd tl ih =>
    obtain ⟨k0, v0⟩ := hd
    simp only [List.map_cons, List.nodup_cons] at hnd
    rcases List.mem_cons.mp h with h1 | h1
    · injection h1 with e1 e2
      subst e1; subst e2
      simp [dlookup]
    · have hne : k ≠ k0 := by
        rintro rfl
        exact hnd.1 (List.mem_map.mpr ⟨(k, v), h1, rfl⟩)
      simp [dlookup, hne, ih hnd.2 h1]

/-! Expiry-sweep characterisation. -/

theorem sweepGo_lookup_none {height : ℕ} {pend : List (String × ℕ)}
    {ws ws' : List (String × WalletRecord)} {p' : List (String × ℕ)}
    {a : String}
    (hs : sweepGo height pend ws = SweepRes.ok p' ws')
    (ha : dlookup pend a = none) :
    dlookup p' a = none ∧ dlookup ws' a = dlookup ws a := by
  induction pend generalizing ws p' ws' with
  | nil =>
    simp only [sweepGo] at hs
    injection hs with h1 h2
    subst h1; subst h2
    exact ⟨ha, rfl⟩
  | cons hd tl ih =>
    obtain ⟨b, ub⟩ := hd
    have hab : ¬ a = b := by
      intro e
      subst e
      simp [dlookup] at ha
    simp only [dlookup, if_neg hab] at ha
    simp only [sweepGo] at hs
    split at hs
    · cases hlw : dlookup ws b with
      | none => rw [hlw] at hs; cases hs
      | some r =>
        rw [hlw] at hs
        obtain ⟨h1, h2⟩ := ih hs ha
        exact ⟨h1, by rw [h2, dlookup_dinsert_ne _ _ _ _ hab]⟩
    · cases hrec : sweepGo height tl ws with
      | ok p'' ws'' =>
        rw [hrec] at hs
        injection hs with h1 h2
        subst h2
        obtain ⟨h1', h2'⟩ := ih hrec ha
        constructor
        · rw [← h1]
          simp [dlookup, hab, h1']
        · exact h2'
      | crash ws'' => rw [hrec] at hs; cases hs

theorem sweepGo_lookup_keep {height : ℕ} {pend : List (String × ℕ)}
    {ws ws' : List (String × WalletRecord)} {p' : List (String × ℕ)}
    {a : String} {uh : ℕ}
    (hnd : (pend.map Prod.fst).Nodup)
    (hs : sweepGo height pend ws = SweepRes.ok p' ws')
    (ha : dlookup pend a = some uh) (hk : height < uh) :
    dlookup p' a = some uh ∧ dlookup ws' a = dlookup ws a := by
  induction pend generalizing ws p' ws' with
  | nil => simp [dlookup] at ha
  | cons hd tl ih =>
    obtain ⟨b, ub⟩ := hd
    simp only [List.map_cons, List.nodup_cons] at hnd
    simp only [sweepGo] at hs
    by_cases hab : a = b
    · subst hab
      simp only [dlookup, if_pos rfl] at ha
      injection ha with ha
      subst ha
      rw [if_neg (by omega)] at hs
      cases hrec : sweepGo height tl ws with
      | ok p'' ws'' =>
        rw [hrec] at hs
        injection hs with h1 h2
        subst h2
        have hnone : dlookup tl a = none :=
          (dlookup_eq_none_iff tl a).mpr hnd.1
        obtain ⟨_, h2'⟩ := sweepGo_lookup_none hrec hnone
        constructor
        · rw [← h1]
          simp [dlookup]
        · exact h2'
      | crash ws'' => rw [hrec] at hs; cases hs
    · simp only [dlookup, if_neg hab] at ha
      split at hs
      · cases hlw : dlookup ws b with
        | none => rw [hlw] at hs; cases hs
        | some r =>
          rw [hlw] at hs
          obtain ⟨h1, h2⟩ := ih hnd.2 hs ha
          exact ⟨h1, by rw [h2, dlookup_dinsert_ne _ _ _ _ hab]⟩
      · cases hrec : sweepGo height tl ws with
        | ok p'' ws'' =>
          rw [hrec] at hs
          injection hs with h1 h2
          subst h2
          obtain ⟨h1', h2'⟩ := ih hnd.2 hrec ha
          constructor
          · rw [← h1]
            simp [dlookup, hab, h1']
          · exact h2'
        | crash ws'' => rw [hrec] at hs; cases hs

theorem sweepGo_lookup_expire {height : ℕ} {pend : List (String × ℕ)}
    {ws ws' : List (String × WalletRecord)} {p' : List (String × ℕ)}
    {a : String} {uh : ℕ}
    (hnd : (pend.map Prod.fst).Nodup)
    (hs : sweepGo height pend ws = SweepRes.ok p' ws')
    (ha : dlookup pend a = some uh) (hk : uh ≤ height) :
    dlookup p' a = none ∧
      ∃ r, dlookup ws a = some r ∧ dlookup ws' a = some ⟨r.stake_value, 0, 0⟩ := by
  induction pend generalizing ws p' ws' with
  | nil => simp [dlookup] at ha
  | cons hd tl ih =>
    obtain ⟨b, ub⟩ := hd
    simp only [List.map_cons, List.nodup_cons] at hnd
    simp only [sweepGo] at hs
    by_cases hab : a = b
    · subst hab
      simp only [dlookup, if_pos rfl] at ha
      injection ha with ha
      subst ha
      rw [if_pos hk] at hs
      cases hlw : dlookup ws a with
      | none => rw [hlw] at hs; cases hs
      | some r =>
        rw [hlw] at hs
        have hnone : dlookup tl a = none :=
          (dlookup_eq_none_iff tl a).mpr hnd.1
        obtain ⟨h1, h2⟩ := sweepGo_lookup_none hs hnone
        refine ⟨h1, r, rfl, ?_⟩
        rw [h2, dlookup_dinsert_self]
    · simp only [dlookup, if_neg hab] at ha
      split at hs
      · cases hlw : dlookup ws b with
        | none => rw [hlw] at hs; cases hs
        | some r =>
          rw [hlw] at hs
          obtain ⟨h1, r', hr1, hr2⟩ := ih hnd.2 hs ha
          rw [dlookup_dinsert_ne _ _ _ _ hab] at hr1
          exact ⟨h1, r', hr1, hr2⟩
      · cases hrec : sweepGo height tl ws with
        | ok p'' ws'' =>
          rw [hrec] at hs
          injection hs with h1 h2
          subst h2
          obtain ⟨h1', hr⟩ := ih hnd.2 hrec ha
          constructor
          · rw [← h1]
            simp [dlookup, hab, h1']
          · exact hr
        | crash ws'' => rw [hrec] at hs; cases hs

theorem sweepGo_keys_sub {height : ℕ} {pend : List (String × ℕ)}
    {ws ws' : List (String × WalletRecord)} {p' : List (String × ℕ)}
    {a : String}
    (hs : sweepGo height pend ws = SweepRes.ok p' ws')
    (ha : a ∈ p'.map Prod.fst) : a ∈ pend.map Prod.fst := by
  induction pend generalizing ws p' ws' with
  | nil =>
    simp only [sweepGo] at hs
    injection hs with h1 h2
    subst h1
    simp at ha
  | cons hd tl ih =>
    obtain ⟨b, ub⟩ := hd
    simp only [sweepGo] at hs
    split at hs
    · cases hlw : dlookup ws b with
      | none => rw [hlw] at hs; cases hs
      | some r =>
        rw [hlw] at hs
        exact List.mem_cons_of_mem _ (ih hs ha)
    · cases hrec : sweepGo height tl ws with
      | ok p'' ws'' =>
        rw [hrec] at hs
        injection hs with h1 h2
        rw [← h1] at ha
        simp only [List.map_cons, List.mem_cons] at ha ⊢
        rcases ha with ha | ha
        · exact Or.inl ha
        · exact Or.inr (ih hrec ha)
      | crash ws'' => rw [hrec] at hs; cases hs

theorem sweepGo_pend_nodup {height : ℕ} {pend : List (String × ℕ)}
    {ws ws' : List (String × WalletRecord)} {p' : List (String × ℕ)}
    (hnd : (pend.map Prod.fst).Nodup)
    (hs : sweepGo height pend ws = SweepRes.ok p' ws') :
    (p'.map Prod.fst).Nodup := by
  induction pend generalizing ws p' ws' with
  | nil =>
    simp only [sweepGo] at hs
    injection hs with h1 h2
    subst h1
    simp
  | cons hd tl ih =>
    obtain ⟨b, ub⟩ := hd
    simp only [List.map_cons, List.nodup_cons] at hnd
    simp only [sweepGo] at hs
    split at hs
    · cases hlw : dlookup ws b with
      | none => rw [hlw] at hs; cases hs
      | some r =>
        rw [hlw] at hs
        exact ih hnd.2 hs
    · cases hrec : sweepGo height tl ws with
      | ok p'' ws'' =>
        rw [hrec] at hs
        injection hs with h1 h2
        rw [← h1]
        simp only [List.map_cons, List.nodup_cons]
        exact ⟨fun hmem => hnd.1 (sweepGo_keys_sub hrec hmem), ih hnd.2 hrec⟩
      | crash ws'' => rw [hrec] at hs; cases hs

theorem sweepGo_ws_nodup {height : ℕ} {pend : List (String × ℕ)}
    {ws ws' : List (String × WalletRecord)} {p' : List (String × ℕ)}
    (hnd : (ws.map Prod.fst).Nodup)
    (hs : sweepGo height pend ws = SweepRes.ok p' ws') :
    (ws'.map Prod.fst).Nodup := by
  induction pend generalizing ws p' ws' with
  | nil =>
    simp only [sweepGo] at hs
    injection hs with h1 h2
    subst h2
    exact hnd
  | cons hd tl ih =>
    obtain ⟨b, ub⟩ := hd
    simp only [sweepGo] at hs
    split at hs
    · cases hlw : dlookup ws b with
      | none => rw [hlw] at hs; cases hs
      | some r =>
        rw [hlw] at hs
        exact ih (nodup_keys_dinsert _ _ _ hnd) hs
    · cases hrec : sweepGo height tl ws with
      | ok p'' ws'' =>
        rw [hrec] at hs
        injection hs with h1 h2
        subst h2
        exact ih hnd hrec
      | crash ws'' => rw [hrec] at hs; cases hs

/-! Per-address loop characterisation. -/

theorem stepWallet_ok_inv {up : ℚ → ℚ → ℕ} {supply : Option ℚ} {height : ℕ}
    {pts : ℚ} {l : LoopSt} {a : String} {v : ℚ} {l' : LoopSt}
    (hstep : stepWallet up supply height pts l a v = StepRes.ok l') :
    l' = ⟨dinsert l.wallets a
        (updateWallet up (supply.getD 0) height pts
          ((dlookup l.wallets a).getD ⟨0, 0, 0⟩) v),
      (if (updateWallet up (supply.getD 0) height pts
            ((dlookup l.wallets a).getD ⟨0, 0, 0⟩) v).unlock_height ≠ 0 then
        dinsert l.pending a
          (updateWallet up (supply.getD 0) height pts
            ((dlookup l.wallets a).getD ⟨0, 0, 0⟩) v).unlock_height
      else l.pending),
      l.ts - ((dlookup l.wallets a).getD ⟨0, 0, 0⟩).stake_value + v,
      l.tu - ((dlookup l.wallets a).getD ⟨0, 0, 0⟩).unstaking_value +
        (updateWallet up (supply.getD 0) height pts
          ((dlookup l.wallets a).getD ⟨0, 0, 0⟩) v).unstaking_value,
      l.tw + countDelta ((dlookup l.wallets a).getD ⟨0, 0, 0⟩).stake_value v⟩ := by
  simp only [stepWallet] at hstep
  split at hstep
  · cases hstep
  · injection hstep with h
    exact h.symm

theorem loopGo_frame {up : ℚ → ℚ → ℕ} {supply : Option ℚ} {height : ℕ}
    {pts : ℚ} {input : List (String × ℚ)} {l l' : LoopSt} {a : String}
    (hrun : loopGo up supply height pts input l = StepRes.ok l')
    (hna : a ∉ input.map Prod.fst) :
    dlookup l'.wallets a = dlookup l.wallets a ∧
      dlookup l'.pending a = dlookup l.pending a := by
  induction input generalizing l with
  | nil =>
    simp only [loopGo] at hrun
    injection hrun with h
    subst h
    exact ⟨rfl, rfl⟩
  | cons hd tl ih =>
    obtain ⟨b, w⟩ := hd
    have hab : a ≠ b := by
      intro e
      subst e
      simp at hna
    simp only [loopGo] at hrun
    cases hstep : stepWallet up supply height pts l b w with
    | crash ws pend => rw [hstep] at hrun; cases hrun
    | ok l1 =>
      rw [hstep] at hrun
      obtain rfl := stepWallet_ok_inv hstep
      have hna' : a ∉ tl.map Prod.fst := by
        intro hmem
        exact hna (List.mem_cons_of_mem _ hmem)
      obtain ⟨h1, h2⟩ := ih hrun hna'
      constructor
      · rw [h1]
        exact dlookup_dinsert_ne _ _ _ _ hab
      · rw [h2]
        split
        · exact dlookup_dinsert_ne _ _ _ _ hab
        · rfl

theorem loopGo_nodup {up : ℚ → ℚ → ℕ} {supply : Option ℚ} {height : ℕ}
    {pts : ℚ} {input : List (String × ℚ)} {l l' : LoopSt}
    (hrun : loopGo up supply height pts input l = StepRes.ok l') :
    ((l.wallets.map Prod.fst).Nodup → (l'.wallets.map Prod.fst).Nodup) ∧
      ((l.pending.map Prod.fst).Nodup → (l'.pending.map Prod.fst).Nodup) := by
  induction input generalizing l with
  | nil =>
    simp only [loopGo] at hrun
    injection hrun with h
    subst h
    exact ⟨id, id⟩
  | cons hd tl ih =>
    obtain ⟨b, w⟩ := hd
    simp only [loopGo] at hrun
    cases hstep : stepWallet up supply height pts l b w with
    | crash ws pend => rw [hstep] at hrun; cases hrun
    | ok l1 =>
      rw [hstep] at hrun
      obtain rfl := stepWallet_ok_inv hstep
      obtain ⟨ihw, ihp⟩ := ih hrun
      constructor
      · intro h
        exact ihw (nodup_keys_dinsert _ _ _ h)
      · intro h
        refine ihp ?_
        split
        · exact nodup_keys_dinsert _ _ _ h
        · exact h

theorem loopGo_hit {up : ℚ → ℚ → ℕ} {supply : Option ℚ} {height : ℕ}
    {pts : ℚ} {input : List (String × ℚ)} {l l' : LoopSt} {a : String} {v : ℚ}
    (hnd : (input.map Prod.fst).Nodup)
    (hmem : (a, v) ∈ input)
    (hrun : loopGo up supply height pts input l = StepRes.ok l') :
    dlookup l'.wallets a =
      some (updateWallet up (supply.getD 0) height pts
        ((dlookup l.wallets a).getD ⟨0, 0, 0⟩) v) := by
  induction input generalizing l with
  | nil => cases hmem
  | cons hd tl ih =>
    obtain ⟨b, w⟩ := hd
    simp only [List.map_cons, List.nodup_cons] at hnd
    simp only [loopGo] at hrun
    cases hstep : stepWallet up supply height pts l b w with
    | crash ws pend => rw [hstep] at hrun; cases hrun
    | ok l1 =>
      rw [hstep] at hrun
      rcases List.mem_cons.mp hmem with h1 | h1
      · injection h1 with e1 e2
        subst e1; subst e2
        obtain rfl := stepWallet_ok_inv hstep
        have hna : a ∉ tl.map Prod.fst := hnd.1
        obtain ⟨h1, _⟩ := loopGo_frame hrun hna
        rw [h1]
        exact dlookup_dinsert_self _ _ _
      · have hab : a ≠ b := by
          rintro rfl
          exact hnd.1 (List.mem_map.mpr ⟨(a, v), h1, rfl⟩)
        obtain rfl := stepWallet_ok_inv hstep
        have := ih hnd.2 h1 hrun
        rwa [dlookup_dinsert_ne _ _ _ _ hab] at this

/-! Committed-execution inversion and the ledger state invariant. -/

theorem execute_committed_inv {up : ℚ → ℚ → ℕ} {supply : Option ℚ}
    {st : CacheState} {h : ℕ} {input : List (String × ℚ)}
    {st' : CacheState} {out : SHOutput}
    (hex : StakeHistory.execute up supply st h input = SHResult.committed st' out) :
    ∃ pend1 ws1 l,
      sweepGo h st.pendingD st.wallets = SweepRes.ok pend1 ws1 ∧
      loopGo up supply h (st.prev_total_staking.getD 0) input
        ⟨ws1, pend1, st.prev_total_staking.getD 0,
          st.prev_total_unstaking.getD 0,
          st.prev_total_staking_wallets.getD 0⟩ = StepRes.ok l ∧
      st' = ⟨some h, some l.ts, some l.tu, some l.tw, some l.pending, l.wallets⟩ ∧
      out = ⟨h, l.ts, l.tu, l.tw⟩ := by
  have hbody : StakeHistory.body up supply st h input = SHResult.committed st' out := by
    unfold StakeHistory.execute at hex
    split at hex
    · split at hex
      · exact hex
      · cases hex
    · exact hex
  simp only [StakeHistory.body] at hbody
  split at hbody
  · cases hbody
  · rename_i pend1 ws1 hsw
    split at hbody
    · cases hbody
    · rename_i l hlp
      injection hbody with h1 h2
      exact ⟨pend1, ws1, l, hsw, hlp, h1.symm, h2.symm⟩

/-- The inductive state invariant of the staking ledger: no duplicate
dict keys, every record satisfies `unstaking_value > 0 ↔ unlock_height
> 0`, and every record with positive `unstaking_value` is indexed in the
pending-unlock dict under its own `unlock_height`. -/
def InvP (ws : List (String × WalletRecord)) (pend : List (String × ℕ)) : Prop :=
  (ws.map Prod.fst).Nodup ∧ (pend.map Prod.fst).Nodup ∧
    (∀ a r, dlookup ws a = some r →
      (0 < r.unstaking_value ↔ 0 < r.unlock_height)) ∧
    (∀ a r, dlookup ws a = some r → 0 < r.unstaking_value →
      dlookup pend a = some r.unlock_height)

theorem sweep_invP {height : ℕ} {pend p' : List (String × ℕ)}
    {ws ws' : List (String × WalletRecord)}
    (hinv : InvP ws pend)
    (hs : sweepGo height pend ws = SweepRes.ok p' ws') :
    InvP ws' p' := by
  obtain ⟨hw, hp, hiff, hidx⟩ := hinv
  refine ⟨sweepGo_ws_nodup hw hs, sweepGo_pend_nodup hp hs, ?_, ?_⟩
  · intro a r hr
    cases hpa : dlookup pend a with
    | none =>
      obtain ⟨_, h2⟩ := sweepGo_lookup_none hs hpa
      rw [h2] at hr
      exact hiff a r hr
    | some uh =>
      by_cases hexp : uh ≤ height
      · obtain ⟨_, r0, hr0, hr0'⟩ := sweepGo_lookup_expire hp hs hpa hexp
        rw [hr0'] at hr
        injection hr with hr
        subst hr
        simp
      · obtain ⟨_, h2⟩ := sweepGo_lookup_keep hp hs hpa (by omega)
        rw [h2] at hr
        exact hiff a r hr
  · intro a r hr hpos
    cases hpa : dlookup pend a with
    | none =>
      obtain ⟨_, h2⟩ := sweepGo_lookup_none hs hpa
      rw [h2] at hr
      have := hidx a r hr hpos
      rw [hpa] at this
      cases this
    | some uh =>
      by_cases hexp : uh ≤ height
      · obtain ⟨_, r0, hr0, hr0'⟩ := sweepGo_lookup_expire hp hs hpa hexp
        rw [hr0'] at hr
        injection hr with hr
        subst hr
        simp at hpos
      · obtain ⟨h1, h2⟩ := sweepGo_lookup_keep hp hs hpa (by omega)
        rw [h2] at hr
        have := hidx a r hr hpos
        rw [hpa] at this
        injection this with this
        rw [h1, this]

theorem updateWallet_iff {up : ℚ → ℚ → ℕ} {sup : ℚ} {height : ℕ} {pts : ℚ}
    {prior : WalletRecord} {v : ℚ}
    (hup : ∀ t s, 0 < up t s)
    (hprior : 0 < prior.unstaking_value → 0 < prior.unlock_height) :
    (0 < (updateWallet up sup height pts prior v).unstaking_value ↔
      0 < (updateWallet up sup height pts prior v).unlock_height) := by
  have hu := hup pts sup
  simp only [updateWallet]
  by_cases h1 : v < prior.stake_value
  · rw [if_pos h1]
    by_cases h2 : 0 < prior.unstaking_value
    · rw [if_pos h2]
      by_cases h3 : prior.unstaking_value + (prior.stake_value - v) ≤ 0
      · rw [if_pos h3]
        simp
      · rw [if_neg h3]
        show 0 < prior.unstaking_value + (prior.stake_value - v) ↔
          0 < height + up pts sup
        constructor
        · intro _
          omega
        · intro _
          linarith
    · rw [if_neg h2]
      by_cases h3 : prior.stake_value - v ≤ 0
      · rw [if_pos h3]
        simp
      · rw [if_neg h3]
        show 0 < prior.stake_value - v ↔ 0 < height + up pts sup
        constructor
        · intro _
          omega
        · intro _
          linarith
  · rw [if_neg h1]
    by_cases h2 : 0 < prior.unstaking_value
    · rw [if_pos h2]
      by_cases h3 : prior.unstaking_value - (v - prior.stake_value) ≤ 0
      · rw [if_pos h3]
        simp
      · rw [if_neg h3]
        show 0 < prior.unstaking_value - (v - prior.stake_value) ↔
          0 < prior.unlock_height
        constructor
        · intro _
          exact hprior h2
        · intro _
          linarith
    · rw [if_neg h2, if_pos le_rfl]
      simp

theorem step_invP {up : ℚ → ℚ → ℕ} {supply : Option ℚ} {height : ℕ}
    {pts : ℚ} {l l' : LoopSt} {a : String} {v : ℚ}
    (hup : ∀ t s, 0 < up t s)
    (hinv : InvP l.wallets l.pending)
    (hstep : stepWallet up supply height pts l a v = StepRes.ok l') :
    InvP l'.wallets l'.pending := by
  obtain ⟨hw, hp, hiff, hidx⟩ := hinv
  obtain rfl := stepWallet_ok_inv hstep
  have hprior : 0 < ((dlookup l.wallets a).getD ⟨0, 0, 0⟩).unstaking_value →
      0 < ((dlookup l.wallets a).getD ⟨0, 0, 0⟩).unlock_height := by
    cases hla : dlookup l.wallets a with
    | none => simp
    | some r =>
      simp only [Option.getD_some]
      exact (hiff a r hla).mp
  have hnr := @updateWallet_iff up (supply.getD 0) height pts
    ((dlookup l.wallets a).getD ⟨0, 0, 0⟩) v hup hprior
  constructor
  · exact nodup_keys_dinsert _ _ _ hw
  constructor
  · simp only
    split
    · exact nodup_keys_dinsert _ _ _ hp
    · exact hp
  constructor
  · intro b r hb
    by_cases hab : b = a
    · subst hab
      rw [dlookup_dinsert_self] at hb
      injection hb with hb
      subst hb
      exact hnr
    · rw [dlookup_dinsert_ne _ _ _ _ hab] at hb
      exact hiff b r hb
  · intro b r hb hpos
    by_cases hab : b = a
    · subst hab
      rw [dlookup_dinsert_self] at hb
      injection hb with hb
      subst hb
      have huh := hnr.mp hpos
      rw [if_pos (by omega)]
      exact dlookup_dinsert_self _ _ _
    · rw [dlookup_dinsert_ne _ _ _ _ hab] at hb
      have := hidx b r hb hpos
      simp only
      split
      · rw [dlookup_dinsert_ne _ _ _ _ hab]
        exact this
      · exact this

theorem loop_invP {up : ℚ → ℚ → ℕ} {supply : Option ℚ} {height : ℕ}
    {pts : ℚ} {input : List (String × ℚ)} {l l' : LoopSt}
    (hup : ∀ t s, 0 < up t s)
    (hinv : InvP l.wallets l.pending)
    (hrun : loopGo up supply height pts input l = StepRes.ok l') :
    InvP l'.wallets l'.pending := by
  induction input generalizing l with
  | nil =>
    simp only [loopGo] at hrun
    injection hrun with h
    subst h
    exact hinv
  | cons hd tl ih =>
    obtain ⟨b, w⟩ := hd
    simp only [loopGo] at hrun
    cases hstep : stepWallet up supply height pts l b w with
    | crash ws pend => rw [hstep] at hrun; cases hrun
    | ok l1 =>
      rw [hstep] at hrun
      exact ih (step_invP hup hinv hstep) hrun

theorem execute_invP {up : ℚ → ℚ → ℕ} {supply : Option ℚ} {st st' : CacheState}
    {h : ℕ} {input : List (String × ℚ)} {out : SHOutput}
    (hup : ∀ t s, 0 < up t s)
    (hinv : InvP st.wallets st.pendingD)
    (hex : StakeHistory.execute up supply st h input = SHResult.committed st' out) :
    InvP st'.wallets st'.pendingD := by
  obtain ⟨pend1, ws1, l, hsw, hlp, hst, _⟩ := execute_committed_inv hex
  have h1 : InvP ws1 pend1 := sweep_invP hinv hsw
  have h2 : InvP l.wallets l.pending := loop_invP hup h1 hlp
  rw [hst]
  exact h2

theorem reachable_invP {up : ℚ → ℚ → ℕ} {st : CacheState}
    (hup : ∀ t s, 0 < up t s) (hr : Reachable up st) :
    InvP st.wallets st.pendingD := by
  induction hr with
  | init =>
    refine ⟨by simp [CacheState.init], by simp [CacheState.init, CacheState.pendingD], ?_, ?_⟩
    · intro a r hr
      simp [CacheState.init, dlookup] at hr
    · intro a r hr
      simp [CacheState.init, dlookup] at hr
  | step _ hex ih => exact execute_invP hup ih hex

/-! Behaviour of committed executions on a wallet absent from the payload. -/

theorem execute_untouched_keep {up : ℚ → ℚ → ℕ} {supply : Option ℚ}
    {st st' : CacheState} {h : ℕ} {input : List (String × ℚ)} {out : SHOutput}
    {w : String} {r : WalletRecord} {H : ℕ}
    (hex : StakeHistory.execute up supply st h input = SHResult.committed st' out)
    (hna : w ∉ input.map Prod.fst)
    (hw : dlookup st.wallets w = some r)
    (hpend : dlookup st.pendingD w = some H)
    (hnd : (st.pendingD.map Prod.fst).Nodup)
    (hlt : h < H) :
    dlookup st'.wallets w = some r ∧ dlookup st'.pendingD w = some H ∧
      (st'.pendingD.map Prod.fst).Nodup := by
  obtain ⟨pend1, ws1, l, hsw, hlp, hst, _⟩ := execute_committed_inv hex
  obtain ⟨hp1, hw1⟩ := sweepGo_lookup_keep hnd hsw hpend hlt
  obtain ⟨hfw, hfp⟩ := loopGo_frame hlp hna
  have hnodup : (l.pending.map Prod.fst).Nodup :=
    (loopGo_nodup hlp).2 (sweepGo_pend_nodup hnd hsw)
  subst hst
  refine ⟨?_, ?_, ?_⟩
  · show dlookup l.wallets w = some r
    rw [hfw]
    show dlookup ws1 w = some r
    rw [hw1, hw]
  · show dlookup l.pending w = some H
    rw [hfp]
    exact hp1
  · exact hnodup

theorem execute_untouched_expire {up : ℚ → ℚ → ℕ} {supply : Option ℚ}
    {st st' : CacheState} {h : ℕ} {input : List (String × ℚ)} {out : SHOutput}
    {w : String} {r : WalletRecord} {H : ℕ}
    (hex : StakeHistory.execute up supply st h input = SHResult.committed st' out)
    (hna : w ∉ input.map Prod.fst)
    (hw : dlookup st.wallets w = some r)
    (hpend : dlookup st.pendingD w = some H)
    (hnd : (st.pendingD.map Prod.fst).Nodup)
    (hle : H ≤ h) :
    dlookup st'.wallets w = some ⟨r.stake_value, 0, 0⟩ ∧
      dlookup st'.pendingD w = none ∧
      (st'.pendingD.map Prod.fst).Nodup := by
  obtain ⟨pend1, ws1, l, hsw, hlp, hst, _⟩ := execute_committed_inv hex
  obtain ⟨hp1, r0, hr0, hr0'⟩ := sweepGo_lookup_expire hnd hsw hpend hle
  rw [hw] at hr0
  injection hr0 with hr0
  subst hr0
  obtain ⟨hfw, hfp⟩ := loopGo_frame hlp hna
  have hnodup : (l.pending.map Prod.fst).Nodup :=
    (loopGo_nodup hlp).2 (sweepGo_pend_nodup hnd hsw)
  subst hst
  refine ⟨?_, ?_, ?_⟩
  · show dlookup l.wallets w = some ⟨r.stake_value, 0, 0⟩
    rw [hfw]
    exact hr0'
  · show dlookup l.pending w = none
    rw [hfp]
    exact hp1
  · exact hnodup

theorem execute_untouched_gone {up : ℚ → ℚ → ℕ} {supply : Option ℚ}
    {st st' : CacheState} {h : ℕ} {input : List (String × ℚ)} {out : SHOutput}
    {w : String} {r0 : WalletRecord}
    (hex : StakeHistory.execute up supply st h input = SHResult.committed st' out)
    (hna : w ∉ input.map Prod.fst)
    (hw : dlookup st.wallets w = some r0)
    (hpend : dlookup st.pendingD w = none) :
    dlookup st'.wallets w = some r0 ∧ dlookup st'.pendingD w = none := by
  obtain ⟨pend1, ws1, l, hsw, hlp, hst, _⟩ := execute_committed_inv hex
  obtain ⟨hp1, hw1⟩ := sweepGo_lookup_none hsw hpend
  obtain ⟨hfw, hfp⟩ := loopGo_frame hlp hna
  subst hst
  constructor
  · show dlookup l.wallets w = some r0
    rw [hfw]
    show dlookup ws1 w = some r0
    rw [hw1, hw]
  · show dlookup l.pending w = none
    rw [hfp]
    exact hp1

theorem runBlocks_preserve_zero {up : ℚ → ℚ → ℕ} {supply : Option ℚ}
    {blocks : List (List (String × ℚ))} {st st' : CacheState} {h : ℕ}
    {w : String} {r0 : WalletRecord}
    (hw : dlookup st.wallets w = some r0)
    (hpend : dlookup st.pendingD w = none)
    (hna : ∀ b ∈ blocks, w ∉ b.map Prod.fst)
    (hrun : runBlocks up supply st h blocks = some st') :
    dlookup st'.wallets w = some r0 ∧ dlookup st'.pendingD w = none := by
  induction blocks generalizing st h with
  | nil =>
    simp only [runBlocks] at hrun
    injection hrun with h
    subst h
    exact ⟨hw, hpend⟩
  | cons b bs ih =>
    simp only [runBlocks] at hrun
    cases hex : StakeHistory.execute up supply st h b with
    | committed st1 out =>
      rw [hex] at hrun
      obtain ⟨hw1, hp1⟩ :=
        execute_untouched_gone hex (hna b (List.mem_cons_self b bs)) hw hpend
      exact ih hw1 hp1 (fun b' hb' => hna b' (List.mem_cons_of_mem _ hb')) hrun
    | skip st1 p =>
      rw [hex] at hrun
      cases hrun
    | crash st1 =>
      rw [hex] at hrun
      cases hrun

theorem runBlocks_settles {up : ℚ → ℚ → ℕ} {supply : Option ℚ}
    {blocks : List (List (String × ℚ))} {st st' : CacheState} {h0 : ℕ}
    {w : String} {s u : ℚ} {H : ℕ}
    (hw : dlookup st.wallets w = some ⟨s, u, H⟩)
    (hpend : dlookup st.pendingD w = some H)
    (hnd : (st.pendingD.map Prod.fst).Nodup)
    (hna : ∀ b ∈ blocks, w ∉ b.map Prod.fst)
    (hlt : h0 < H)
    (hrun : runBlocks up supply st (h0 + 1) blocks = some st') :
    (h0 + blocks.length < H → dlookup st'.wallets w = some ⟨s, u, H⟩) ∧
      (H ≤ h0 + blocks.length → dlookup st'.wallets w = some ⟨s, 0, 0⟩) := by
  induction blocks generalizing st h0 with
  | nil =>
    simp only [runBlocks] at hrun
    injection hrun with h
    subst h
    constructor
    · intro _
      exact hw
    · intro hH
      simp only [List.length_nil, Nat.add_zero] at hH
      omega
  | cons b bs ih =>
    simp only [runBlocks] at hrun
    cases hex : StakeHistory.execute up supply st (h0 + 1) b with
    | committed st1 out =>
      rw [hex] at hrun
      by_cases hH : h0 + 1 < H
      · obtain ⟨hw1, hp1, hnd1⟩ := execute_untouched_keep hex
          (hna b (List.mem_cons_self b bs)) hw hpend hnd hH
        obtain ⟨ih1, ih2⟩ := ih hw1 hp1 hnd1
          (fun b' hb' => hna b' (List.mem_cons_of_mem _ hb')) hH hrun
        constructor
        · intro hlen
          simp only [List.length_cons] at hlen
          exact ih1 (by omega)
        · intro hlen
          simp only [List.length_cons] at hlen
          exact ih2 (by omega)
      · have hle : H ≤ h0 + 1 := by omega
        obtain ⟨hw1, hp1, _⟩ := execute_untouched_expire hex
          (hna b (List.mem_cons_self b bs)) hw hpend hnd hle
        obtain ⟨hzf, _⟩ := runBlocks_preserve_zero hw1 hp1
          (fun b' hb' => hna b' (List.mem_cons_of_mem _ hb')) hrun
        constructor
        · intro hlen
          simp only [List.length_cons] at hlen
          omega
        · intro _
          exact hzf
    | skip st1 p =>
      rw [hex] at hrun
      cases hrun
    | crash st1 =>
      rw [hex] at hrun
      cases hrun

theorem execute_next {up : ℚ → ℚ → ℕ} {supply : Option ℚ} {st : CacheState}
    {h : ℕ} {input : List (String × ℚ)} {p : ℕ}
    (hp : st.prev_state_height = some p) (hh : h = p + 1) :
    StakeHistory.execute up supply st h input =
      StakeHistory.body up supply st h input := by
  unfold StakeHistory.execute
  split
  · rename_i p' hp'
    rw [hp] at hp'
    injection hp' with hp'
    subst hp'
    rw [if_pos hh]
  · rfl

/-- C1: for both transforms, calling `execute` when a committed
last-state height `p` exists and the incoming height is not `p + 1`
leaves all persisted state unchanged, issues a resync request carrying
`p` to the upstream orchestrator, and returns `None` (the `skip`
result). -/
theorem C1_out_of_order_skip :
    (∀ (up : ℚ → ℚ → ℕ) (supply : Option ℚ) (st : CacheState) (h : ℕ)
        (input : List (String × ℚ)) (p : ℕ),
        st.prev_state_height = some p → h ≠ p + 1 →
        StakeHistory.execute up supply st h input = SHResult.skip st p) ∧
    (∀ (st : RswState) (h : ℕ) (input : List (String × ℚ)) (p : ℕ),
        st.last_state_height = some p → h ≠ p + 1 →
        RecentStakeWallets.execute st h input = RswResult.skip st p) := by
  constructor
  · intro up supply st h input p hp hne
    unfold StakeHistory.execute
    rw [hp]
    simp [hne]
  · intro st h input p hp hne
    unfold RecentStakeWallets.execute
    rw [hp]
    simp [hne]

/-- C7: in every per-address update of the staking-ledger transform, the
running wallet count is incremented exactly when the prior stake is zero
and the new stake positive, decremented exactly when the prior stake is
positive and the new stake zero, and unchanged for every other
transition. -/
theorem C7_wallet_count_transition
    (up : ℚ → ℚ → ℕ) (supply : Option ℚ) (height : ℕ) (pts : ℚ)
    (l : LoopSt) (a : String) (v : ℚ) (l' : LoopSt)
    (hstep : stepWallet up supply height pts l a v = StepRes.ok l') :
    (l'.tw = l.tw + 1 ↔
      (((dlookup l.wallets a).getD ⟨0, 0, 0⟩).stake_value = 0 ∧ 0 < v)) ∧
    (l'.tw = l.tw - 1 ↔
      (0 < ((dlookup l.wallets a).getD ⟨0, 0, 0⟩).stake_value ∧ v = 0)) ∧
    (¬(((dlookup l.wallets a).getD ⟨0, 0, 0⟩).stake_value = 0 ∧ 0 < v) →
      ¬(0 < ((dlookup l.wallets a).getD ⟨0, 0, 0⟩).stake_value ∧ v = 0) →
      l'.tw = l.tw) := by
  obtain rfl := stepWallet_ok_inv hstep
  dsimp only
  unfold countDelta
  by_cases h1 : ((dlookup l.wallets a).getD ⟨0, 0, 0⟩).stake_value = 0 ∧ 0 < v
  · rw [if_pos h1]
    refine ⟨⟨fun _ => h1, fun _ => rfl⟩, ?_, ?_⟩
    · constructor
      · intro he
        omega
      · rintro ⟨hps, _⟩
        rw [h1.1] at hps
        exact absurd hps (lt_irrefl 0)
    · intro hc _
      exact absurd h1 hc
  · rw [if_neg h1]
    by_cases h2 : 0 < ((dlookup l.wallets a).getD ⟨0, 0, 0⟩).stake_value ∧ v = 0
    · rw [if_pos h2]
      refine ⟨?_, ⟨fun _ => h2, fun _ => rfl⟩, ?_⟩
      · constructor
        · intro he
          omega
        · intro hx
          exact absurd hx h1
      · intro _ hc
        exact absurd h2 hc
    · rw [if_neg h2]
      refine ⟨?_, ?_, fun _ _ => by omega⟩
      · constructor
        · intro he
          omega
        · intro hx
          exact absurd hx h1
      · constructor
        · intro he
          omega
        · intro hx
          exact absurd hx h2

/-- C9: executing the staking-ledger transform at the expected next
height with an empty payload still runs the expiry sweep, still commits
`LastStateHeight` equal to that height, and returns a non-`None` output
for that height; the external total-supply collaborator is never read. -/
theorem C9_empty_payload_commits (up : ℚ → ℚ → ℕ) (supply : Option ℚ)
    (st : CacheState) (p : ℕ) (pend1 : List (String × ℕ))
    (ws1 : List (String × WalletRecord))
    (hp : st.prev_state_height = some p)
    (hsw : sweepGo (p + 1) st.pendingD st.wallets = SweepRes.ok pend1 ws1) :
    StakeHistory.execute up supply st (p + 1) [] =
      SHResult.committed
        ⟨some (p + 1), some (st.prev_total_staking.getD 0),
          some (st.prev_total_unstaking.getD 0),
          some (st.prev_total_staking_wallets.getD 0), some pend1, ws1⟩
        ⟨p + 1, st.prev_total_staking.getD 0, st.prev_total_unstaking.getD 0,
          st.prev_total_staking_wallets.getD 0⟩ := by
  rw [execute_next hp rfl]
  simp only [StakeHistory.body]
  rw [hsw]
  simp [loopGo]

/-- C10: every committed execution of the wallet-snapshot transform
leaves the stored recently-active-wallet mapping unchanged: with wallet
activity in the payload the value staged back under the
`recent_stake_wallets` key is exactly the decoded value read (an absent
key decodes to the empty mapping) and the `misc` channel carries it;
with an empty payload the key is not written and `misc` carries `None`;
the primary `data` output is always the empty mapping. -/
theorem C10_snapshot_frame (st : RswState) (h : ℕ)
    (input : List (String × ℚ)) (st' : RswState) (out : RswOutput)
    (hex : RecentStakeWallets.execute st h input = RswResult.committed st' out) :
    (input ≠ [] →
      st'.recent_stake_wallets = some (st.recent_stake_wallets.getD []) ∧
      out.misc_wallets = some (st.recent_stake_wallets.getD [])) ∧
    (input = [] →
      st'.recent_stake_wallets = st.recent_stake_wallets ∧
      out.misc_wallets = none) ∧
    out.data = [] ∧ st'.last_state_height = some h ∧ out.height = h := by
  have hiff : input.isEmpty = true ↔ input = [] := List.isEmpty_iff
  unfold RecentStakeWallets.execute at hex
  split at hex
  · split at hex
    · split at hex
      · rename_i hemp
        injection hex with h1 h2
        subst h1
        subst h2
        have he : input = [] := hiff.mp hemp
        exact ⟨fun hne => absurd he hne, fun _ => ⟨rfl, rfl⟩, rfl, rfl, rfl⟩
      · rename_i hemp
        injection hex with h1 h2
        subst h1
        subst h2
        have he : input ≠ [] := fun e => hemp (hiff.mpr e)
        exact ⟨fun _ => ⟨rfl, rfl⟩, fun hc => absurd hc he, rfl, rfl, rfl⟩
    · cases hex
  · split at hex
    · rename_i hemp
      injection hex with h1 h2
      subst h1
      subst h2
      have he : input = [] := hiff.mp hemp
      exact ⟨fun hne => absurd he hne, fun _ => ⟨rfl, rfl⟩, rfl, rfl, rfl⟩
    · rename_i hemp
      injection hex with h1 h2
      subst h1
      subst h2
      have he : input ≠ [] := fun e => hemp (hiff.mpr e)
      exact ⟨fun _ => ⟨rfl, rfl⟩, fun hc => absurd hc he, rfl, rfl, rfl⟩

/-- C3: on a committed block, the expiry sweep zeroes, before any
per-wallet update, the `unstaking_value` and `unlock_height` of every
pending-unlock entry whose `unlock_height` is at most the current height
(preserving its `stake_value`) and removes the entry from the
pending-unlock dict; consequently, over any run of committed blocks that
do not mention the wallet, a wallet holding record `(s, u, H)` with
`u > 0` keeps its nonzero `unstaking_value` at every committed height
strictly below `H` and has it zeroed at the first committed height
`≥ H`. -/
theorem C3_sweep_and_settlement :
    (∀ (height : ℕ) (pend p' : List (String × ℕ))
        (ws ws' : List (String × WalletRecord)) (a : String) (uh : ℕ),
        (pend.map Prod.fst).Nodup →
        dlookup pend a = some uh → uh ≤ height →
        sweepGo height pend ws = SweepRes.ok p' ws' →
        dlookup p' a = none ∧
          ∃ r, dlookup ws a = some r ∧
            dlookup ws' a = some ⟨r.stake_value, 0, 0⟩) ∧
    (∀ (up : ℚ → ℚ → ℕ) (supply : Option ℚ)
        (blocks : List (List (String × ℚ))) (st st' : CacheState)
        (h0 : ℕ) (w : String) (s u : ℚ) (H : ℕ),
        dlookup st.wallets w = some ⟨s, u, H⟩ → 0 < u →
        dlookup st.pendingD w = some H →
        (st.pendingD.map Prod.fst).Nodup →
        (∀ b ∈ blocks, w ∉ b.map Prod.fst) →
        h0 < H →
        runBlocks up supply st (h0 + 1) blocks = some st' →
        (h0 + blocks.length < H →
          dlookup st'.wallets w = some ⟨s, u, H⟩ ∧ u ≠ 0) ∧
        (H ≤ h0 + blocks.length →
          dlookup st'.wallets w = some ⟨s, 0, 0⟩)) := by
  constructor
  · intro height pend p' ws ws' a uh hnd ha hle hs
    exact sweepGo_lookup_expire hnd hs ha hle
  · intro up supply blocks st st' h0 w s u H hw hu hpend hnd hna hlt hrun
    obtain ⟨h1, h2⟩ := runBlocks_settles hw hpend hnd hna hlt hrun
    exact ⟨fun hl => ⟨h1 hl, ne_of_gt hu⟩, h2⟩

/-- C8: in every cache state reached from the empty store through
committed executions of the staking-ledger transform, provided the
external unlock-period policy always returns a positive block count,
every persisted wallet record satisfies `unstaking_value > 0` if and
only if `unlock_height > 0`. -/
theorem C8_unstaking_iff_unlock (up : ℚ → ℚ → ℕ) (st : CacheState)
    (hup : ∀ t s, 0 < up t s) (hr : Reachable up st) :
    ∀ a r, dlookup st.wallets a = some r →
      (0 < r.unstaking_value ↔ 0 < r.unlock_height) :=
  (reachable_invP hup hr).2.2.1

/-- C4 (amended): in every cache state reached from the empty store
through committed executions (with a positive unlock-period policy),
every wallet record with positive `unstaking_value` is indexed in the
pending-unlock dict under its `unlock_height` — but the dict may also
retain stale addresses: a per-address update that settles a wallet's
`unstaking_value` to 0 writes a record with `unlock_height = 0` and
leaves the pending-unlock dict unchanged, without removing the
address. -/
theorem C4_pending_contains_unstaking (up : ℚ → ℚ → ℕ) (st : CacheState)
    (hup : ∀ t s, 0 < up t s) (hr : Reachable up st) :
    (∀ a r, dlookup st.wallets a = some r → 0 < r.unstaking_value →
      dlookup st.pendingD a = some r.unlock_height) ∧
    (∀ (supply : Option ℚ) (height : ℕ) (pts : ℚ) (l l' : LoopSt)
        (a : String) (v : ℚ),
      stepWallet up supply height pts l a v = StepRes.ok l' →
      (updateWallet up (supply.getD 0) height pts
        ((dlookup l.wallets a).getD ⟨0, 0, 0⟩) v).unlock_height = 0 →
      l'.pending = l.pending) := by
  constructor
  · exact (reachable_invP hup hr).2.2.2
  · intro supply height pts l l' a v hstep h0
    obtain rfl := stepWallet_ok_inv hstep
    dsimp only
    rw [if_neg (by simp [h0])]

/-- C6 (amended): in the unstake branch of a committed per-address
update, the new `unlock_height` is `height + unlock_period(T,
total_supply)` where `T` is the committed total staking of the previous
block — the value read from the cache at the start of the call — not
the running total including earlier same-block wallet changes. -/
theorem C6_unlock_period_block_start (up : ℚ → ℚ → ℕ) (s : ℚ)
    (st st' : CacheState) (h : ℕ) (input : List (String × ℚ))
    (out : SHOutput) (a : String) (v : ℚ) (prior : WalletRecord)
    (pend1 : List (String × ℕ)) (ws1 : List (String × WalletRecord))
    (hex : StakeHistory.execute up (some s) st h input = SHResult.committed st' out)
    (hnd : (input.map Prod.fst).Nodup)
    (hmem : (a, v) ∈ input)
    (hsw : sweepGo h st.pendingD st.wallets = SweepRes.ok pend1 ws1)
    (hprior : prior = (dlookup ws1 a).getD ⟨0, 0, 0⟩)
    (hpu : 0 ≤ prior.unstaking_value) :
    dlookup st'.wallets a =
      some (updateWallet up s h (st.prev_total_staking.getD 0) prior v) ∧
    (v < prior.stake_value →
      (updateWallet up s h (st.prev_total_staking.getD 0) prior v).unlock_height =
        h + up (st.prev_total_staking.getD 0) s) := by
  obtain ⟨pend1', ws1', l, hsw', hlp, hst, _⟩ := execute_committed_inv hex
  rw [hsw] at hsw'
  injection hsw' with e1 e2
  subst e1
  subst e2
  constructor
  · have hhit := loopGo_hit hnd hmem hlp
    subst hst
    subst hprior
    exact hhit
  · intro hv
    unfold updateWallet
    rw [if_pos hv]
    by_cases hq : 0 < prior.unstaking_value
    · rw [if_pos hq, if_neg (by push_neg; linarith)]
    · rw [if_neg hq, if_neg (by push_neg; linarith)]

section ConcreteEvaluations

attribute [local semireducible] Rat.add Rat.sub Rat.mul

/-- C2 at the failing input: wallet a stakes 100 at height 1, unstakes
down to 40 at height 2 (unlock height 5 under the constant policy 3),
blocks 3-5 are empty; the sweep at height 5 zeroes the wallet's
`unstaking_value` but the committed `total_unstaking` remains 60 while
the sum of `unstaking_value` over all persisted wallet records is 0
(the sum of `stake_value` does still match `total_staking`). -/
theorem C2_total_unstaking_drift :
    runBlocks (fun _ _ => 3) (some 1000) CacheState.init 1
        [[("a", 100)], [("a", 40)], [], [], []] =
      some ⟨some 5, some 40, some 60, some 1, some [],
        [("a", ⟨40, 0, 0⟩)]⟩ ∧
    sumUnstaking [("a", (⟨40, 0, 0⟩ : WalletRecord))] = 0 ∧
    sumStaking [("a", (⟨40, 0, 0⟩ : WalletRecord))] = 40 ∧
    (60 : ℚ) ≠ 0 := by
  decide

/-- C5 at the failing input: from a state with an expired pending unlock
for wallet a and a payload that unstakes wallet b, an unavailable
total-supply collaborator makes the staking-ledger transform raise after
the sweep's plain puts have been issued: the persisted state differs
from the pre-call state (a's record zeroed, the pending dict emptied)
while `prev_state_height` and the totals are not advanced — a visible
partial write. -/
theorem C5_partial_write_on_crash :
    StakeHistory.execute (fun _ _ => 3) none
        ⟨some 9, some 100, some 60, some 2, some [("a", 5)],
          [("a", ⟨40, 60, 5⟩), ("b", ⟨100, 0, 0⟩)]⟩
        10 [("b", 50)] =
      SHResult.crash
        ⟨some 9, some 100, some 60, some 2, some [],
          [("a", ⟨40, 0, 0⟩), ("b", ⟨100, 0, 0⟩)]⟩ ∧
    (⟨some 9, some 100, some 60, some 2, some [],
        [("a", ⟨40, 0, 0⟩), ("b", ⟨100, 0, 0⟩)]⟩ : CacheState) ≠
      ⟨some 9, some 100, some 60, some 2, some [("a", 5)],
        [("a", ⟨40, 60, 5⟩), ("b", ⟨100, 0, 0⟩)]⟩ := by
  decide

/-- C4 counterexample: after the committed run "stake 100, unstake to 40
(unlock height 5), full restake to 200 at height 3", the address is
still in the pending-unlock dict although its persisted
`unstaking_value` is 0 — the pending-unlock set does not contain exactly
the addresses with positive `unstaking_value`, and the settling update
did not remove the address. -/
theorem C4_counterexample :
    runBlocks (fun _ _ => 3) (some 1000) CacheState.init 1
        [[("a", 100)], [("a", 40)], [("a", 200)]] =
      some ⟨some 3, some 200, some 0, some 1, some [("a", 5)],
        [("a", ⟨200, 0, 0⟩)]⟩ ∧
    dlookup [("a", (5 : ℕ))] "a" = some 5 ∧
    dlookup [("a", (⟨200, 0, 0⟩ : WalletRecord))] "a" = some ⟨200, 0, 0⟩ ∧
    (⟨200, 0, 0⟩ : WalletRecord).unstaking_value = 0 := by
  decide

/-- C6 counterexample: with the policy returning 3 below total stake 200
and 7 otherwise, the two-wallet block at height 2 stores unlock height
`2 + unlock_period(150, supply) = 5` for wallet b, although the total
staking before b's own change (after a's same-block change) is
`150 - 100 + 200 = 250`, for which the claim would require
`2 + unlock_period(250, supply) = 9`. -/
theorem C6_counterexample :
    runBlocks (fun t _ : ℚ => if t < 200 then 3 else 7) (some 1000)
        CacheState.init 1
        [[("a", 100), ("b", 50)], [("a", 200), ("b", 10)]] =
      some ⟨some 2, some 210, some 40, some 2, some [("b", 5)],
        [("a", ⟨200, 0, 0⟩), ("b", ⟨10, 40, 5⟩)]⟩ ∧
    dlookup [("a", (⟨200, 0, 0⟩ : WalletRecord)), ("b", ⟨10, 40, 5⟩)] "b" =
      some ⟨10, 40, 5⟩ ∧
    (150 : ℚ) - 100 + 200 = 250 ∧
    2 + (if (250 : ℚ) < 200 then 3 else 7) = 9 ∧
    (⟨10, 40, 5⟩ : WalletRecord).unlock_height ≠
      2 + (if (250 : ℚ) < 200 then 3 else 7) := by
  decide

theorem C1_out_of_order_skip_witness :
    StakeHistory.execute (fun _ _ => 3) (some 1000)
        ⟨some 4, some 40, some 60, some 1, some [("a", 5)],
          [("a", ⟨40, 60, 5⟩)]⟩ 9 [("a", 7)] =
      SHResult.skip ⟨some 4, some 40, some 60, some 1, some [("a", 5)],
        [("a", ⟨40, 60, 5⟩)]⟩ 4 ∧
    RecentStakeWallets.execute ⟨some 4, some [("a", 1)]⟩ 9 [("b", 2)] =
      RswResult.skip ⟨some 4, some [("a", 1)]⟩ 4 :=
  ⟨C1_out_of_order_skip.1 (fun _ _ => 3) (some 1000)
      ⟨some 4, some 40, some 60, some 1, some [("a", 5)], [("a", ⟨40, 60, 5⟩)]⟩
      9 [("a", 7)] 4 rfl (by decide),
   C1_out_of_order_skip.2 ⟨some 4, some [("a", 1)]⟩ 9 [("b", 2)] 4 rfl (by decide)⟩

theorem C3_sweep_and_settlement_witness :
    (dlookup ([] : List (String × ℕ)) "a" = none ∧
      ∃ r, dlookup [("a", (⟨40, 60, 5⟩ : WalletRecord))] "a" = some r ∧
        dlookup [("a", (⟨40, 0, 0⟩ : WalletRecord))] "a" =
          some ⟨r.stake_value, 0, 0⟩) ∧
    ((2 + 3 < 5 →
        dlookup [("a", (⟨40, 0, 0⟩ : WalletRecord))] "a" = some ⟨40, 60, 5⟩ ∧
          (60 : ℚ) ≠ 0) ∧
      (5 ≤ 2 + 3 →
        dlookup [("a", (⟨40, 0, 0⟩ : WalletRecord))] "a" = some ⟨40, 0, 0⟩)) :=
  ⟨C3_sweep_and_settlement.1 5 [("a", 5)] [] [("a", ⟨40, 60, 5⟩)]
      [("a", ⟨40, 0, 0⟩)] "a" 5 (by decide) (by decide) (by decide) (by decide),
   C3_sweep_and_settlement.2 (fun _ _ => 3) (some 1000) [[], [], []]
      ⟨some 2, some 40, some 60, some 1, some [("a", 5)], [("a", ⟨40, 60, 5⟩)]⟩
      ⟨some 5, some 40, some 60, some 1, some [], [("a", ⟨40, 0, 0⟩)]⟩
      2 "a" 40 60 5 (by decide) (by decide) (by decide) (by decide)
      (by decide) (by decide) (by decide)⟩

theorem C4_pending_contains_unstaking_witness :
    dlookup [("a", (5 : ℕ))] "a" = some (5 : ℕ) ∧
    ([("a", (5 : ℕ))] : List (String × ℕ)) = [("a", 5)] := by
  have h1 : StakeHistory.execute (fun _ _ => 3) (some 1000) CacheState.init
      1 [("a", 100)] =
      SHResult.committed
        ⟨some 1, some 100, some 0, some 1, some [], [("a", ⟨100, 0, 0⟩)]⟩
        ⟨1, 100, 0, 1⟩ := by decide
  have h2 : StakeHistory.execute (fun _ _ => 3) (some 1000)
      ⟨some 1, some 100, some 0, some 1, some [], [("a", ⟨100, 0, 0⟩)]⟩
      2 [("a", 40)] =
      SHResult.committed
        ⟨some 2, some 40, some 60, some 1, some [("a", 5)], [("a", ⟨40, 60, 5⟩)]⟩
        ⟨2, 40, 60, 1⟩ := by decide
  have hthm := C4_pending_contains_unstaking (fun _ _ => 3)
    ⟨some 2, some 40, some 60, some 1, some [("a", 5)], [("a", ⟨40, 60, 5⟩)]⟩
    (fun t s => by show (0 : ℕ) < 3; decide)
    (Reachable.step (Reachable.step Reachable.init h1) h2)
  constructor
  · exact hthm.1 "a" ⟨40, 60, 5⟩ (by decide) (by decide)
  · exact hthm.2 (some 1000) 3 40 ⟨[("a", ⟨40, 60, 5⟩)], [("a", 5)], 40, 60, 1⟩
      ⟨[("a", ⟨200, 0, 0⟩)], [("a", 5)], 200, 0, 1⟩ "a" 200
      (by decide) (by decide)

theorem C6_unlock_period_block_start_witness :
    dlookup [("a", (⟨200, 0, 0⟩ : WalletRecord)), ("b", ⟨10, 40, 5⟩)] "b" =
      some (updateWallet (fun t _ : ℚ => if t < 200 then 3 else 7) 1000 2 150
        ⟨50, 0, 0⟩ 10) ∧
    ((10 : ℚ) < 50 →
      (updateWallet (fun t _ : ℚ => if t < 200 then 3 else 7) 1000 2 150
          ⟨50, 0, 0⟩ 10).unlock_height =
        2 + (if (150 : ℚ) < 200 then 3 else 7)) :=
  C6_unlock_period_block_start (fun t _ : ℚ => if t < 200 then 3 else 7) 1000
    ⟨some 1, some 150, some 0, some 2, some [],
      [("a", ⟨100, 0, 0⟩), ("b", ⟨50, 0, 0⟩)]⟩
    ⟨some 2, some 210, some 40, some 2, some [("b", 5)],
      [("a", ⟨200, 0, 0⟩), ("b", ⟨10, 40, 5⟩)]⟩
    2 [("a", 200), ("b", 10)] ⟨2, 210, 40, 2⟩ "b" 10 ⟨50, 0, 0⟩
    [] [("a", ⟨100, 0, 0⟩), ("b", ⟨50, 0, 0⟩)]
    (by decide) (by decide) (by decide) (by decide) (by decide) (by decide)

theorem C7_wallet_count_transition_witness :
    ((1 : ℤ) = 0 + 1 ↔ ((0 : ℚ) = 0 ∧ (0 : ℚ) < 100)) ∧
    ((1 : ℤ) = 0 - 1 ↔ ((0 : ℚ) < 0 ∧ (100 : ℚ) = 0)) ∧
    (¬((0 : ℚ) = 0 ∧ (0 : ℚ) < 100) → ¬((0 : ℚ) < 0 ∧ (100 : ℚ) = 0) →
      (1 : ℤ) = 0) :=
  C7_wallet_count_transition (fun _ _ => 3) (some 1000) 1 0 ⟨[], [], 0, 0, 0⟩
    "a" 100 ⟨[("a", ⟨100, 0, 0⟩)], [], 100, 0, 1⟩ (by decide)

theorem C8_unstaking_iff_unlock_witness : (0 : ℚ) < 60 ↔ 0 < (5 : ℕ) := by
  have h1 : StakeHistory.execute (fun _ _ => 3) (some 1000) CacheState.init
      1 [("a", 100)] =
      SHResult.committed
        ⟨some 1, some 100, some 0, some 1, some [], [("a", ⟨100, 0, 0⟩)]⟩
        ⟨1, 100, 0, 1⟩ := by decide
  have h2 : StakeHistory.execute (fun _ _ => 3) (some 1000)
      ⟨some 1, some 100, some 0, some 1, some [], [("a", ⟨100, 0, 0⟩)]⟩
      2 [("a", 40)] =
      SHResult.committed
        ⟨some 2, some 40, some 60, some 1, some [("a", 5)], [("a", ⟨40, 60, 5⟩)]⟩
        ⟨2, 40, 60, 1⟩ := by decide
  exact C8_unstaking_iff_unlock (fun _ _ => 3)
    ⟨some 2, some 40, some 60, some 1, some [("a", 5)], [("a", ⟨40, 60, 5⟩)]⟩
    (fun t s => by show (0 : ℕ) < 3; decide)
    (Reachable.step (Reachable.step Reachable.init h1) h2)
    "a" ⟨40, 60, 5⟩ (by decide)

theorem C9_empty_payload_commits_witness :
    StakeHistory.execute (fun _ _ => 3) none
        ⟨some 4, some 40, some 60, some 1, some [("a", 5)],
          [("a", ⟨40, 60, 5⟩)]⟩ (4 + 1) [] =
      SHResult.committed
        ⟨some (4 + 1), some 40, some 60, some 1, some [], [("a", ⟨40, 0, 0⟩)]⟩
        ⟨4 + 1, 40, 60, 1⟩ :=
  C9_empty_payload_commits (fun _ _ => 3) none
    ⟨some 4, some 40, some 60, some 1, some [("a", 5)], [("a", ⟨40, 60, 5⟩)]⟩
    4 [] [("a", ⟨40, 0, 0⟩)] rfl (by decide)

theorem C10_snapshot_frame_witness :
    (([("x", (1 : ℚ))] : List (String × ℚ)) ≠ [] →
      (some [("m", (2 : ℚ))] : Option (List (String × ℚ))) = some [("m", 2)] ∧
      (some [("m", (2 : ℚ))] : Option (List (String × ℚ))) = some [("m", 2)]) ∧
    (([("x", (1 : ℚ))] : List (String × ℚ)) = [] →
      (some [("m", (2 : ℚ))] : Option (List (String × ℚ))) = some [("m", 2)] ∧
      (some [("m", (2 : ℚ))] : Option (List (String × ℚ))) = none) ∧
    ([] : List (String × ℚ)) = [] ∧
    (some 5 : Option ℕ) = some 5 ∧ (5 : ℕ) = 5 :=
  C10_snapshot_frame ⟨some 4, some [("m", 2)]⟩ 5 [("x", 1)]
    ⟨some 5, some [("m", 2)]⟩ ⟨5, [], some [("m", 2)], 5⟩ (by decide)

end ConcreteEvaluations
